import Mathlib

/-!
Shallow embedding of `pwkit/numutil.py` (NumPy and generic numerical
utilities) and verification of its specification.

Modelling conventions:
* Python/NumPy floating point numbers are modelled as exact rationals `ℚ`
  wherever the code computes field operations and comparisons; functions that
  call a floating-point square root take the square-root function as an
  explicit argument `sqrt : α → α` so that the definitions stay computable and
  can be instantiated with `Real.sqrt`.
* 1-d NumPy arrays become `List ℚ`; fallible functions return `Except Err _`.
* Python generators become the lists of the values they yield.
-/

/-- Error taxonomy: the source raises `ValueError`/`TypeError`; the spec names
the corresponding conditions `ConfigurationError`, `OrderError`,
`SampleSizeError`, `ShapeError` and `ArityError`. -/
inductive Err where
  | configurationError
  | orderError
  | sampleSizeError
  | shapeError
  | arityError
  | zeroDivisionError
deriving DecidableEq

/-- Python 2 `round`: round half away from zero (the module is Python 2:
it uses `xrange`); `int(round(q))` is this integer. -/
def pyRound (q : ℚ) : ℤ :=
  if 0 ≤ q then ⌊q + 1 / 2⌋ else -⌊-q + 1 / 2⌋

/-- Python extended slicing `l[::k]` for `k ≥ 1`: every `k`-th element. -/
def everyKth {α : Type} (k : Nat) (l : List α) : List α :=
  (l.enum.filter (fun p => decide (p.1 % k = 0))).map Prod.snd

/-- `delta = values[1:] - values[:-1]` of `slice_around_gaps`. -/
def adjacentDeltas (values : List ℚ) : List ℚ :=
  List.zipWith (fun a b => a - b) values.tail values

/-- `np.where(delta > maxgap)[0] + 1`: the (sorted) indices at which the
adjacent difference exceeds `maxgap`, each shifted by one. -/
def whgap (values : List ℚ) (maxgap : ℚ) : List Nat :=
  ((List.range (adjacentDeltas values).length).filter
    (fun i => decide (maxgap < (adjacentDeltas values).getD i 0))).map (fun i => i + 1)

/-- The yield loop of `slice_around_gaps`: `prev_idx` starts as `None`;
for each gap index the slice `(prev_idx, gap_idx)` is yielded, and the final
slice is `(prev_idx, None)`. -/
def slicesFrom (prev : Option Nat) : List Nat → List (Option Nat × Option Nat)
  | [] => [(prev, none)]
  | g :: gs => (prev, some g) :: slicesFrom (some g) gs

/-- The sequence of slices yielded by `slice_around_gaps` after validation. -/
def gapSlices (values : List ℚ) (maxgap : ℚ) : List (Option Nat × Option Nat) :=
  slicesFrom none (whgap values maxgap)

/-- `slice_around_gaps(values, maxgap)`: validates `maxgap > 0` (raising what
the spec calls a `ConfigurationError`) and that no adjacent difference is
negative (an `OrderError`), then yields the gap-separated slices. -/
def slice_around_gaps (values : List ℚ) (maxgap : ℚ) :
    Except Err (List (Option Nat × Option Nat)) :=
  if ¬ 0 < maxgap then .error .configurationError
  else if (adjacentDeltas values).any (fun d => decide (d < 0)) then .error .orderError
  else .ok (gapSlices values maxgap)

/-- Reading of the `None` endpoints of a yielded slice as `0` and the array
length. -/
def resolveSlice (l : Nat) (p : Option Nat × Option Nat) : Nat × Nat :=
  (p.1.getD 0, p.2.getD l)

/-- The slices of `slice_around_gaps` with `None` endpoints read as `0` and
the length of `values`. -/
def resolvedSlices (values : List ℚ) (maxgap : ℚ) : List (Nat × Nat) :=
  (gapSlices values maxgap).map (resolveSlice values.length)

/-- Python `slice.indices(l)` for slices whose explicit endpoints are
nonnegative: `None` becomes `0`/`l` and the endpoints are clamped to `[0, l]`
(the stride is 1 and is ignored). -/
def sliceIndices (l : Nat) (p : Option Nat × Option Nat) : Nat × Nat :=
  (min (p.1.getD 0) l, min (p.2.getD l) l)

/-- An IEEE-754-style double for the `maxgap` parameter of
`slice_around_gaps`: a finite rational, an infinity, or NaN. -/
inductive PyFloat where
  | fin (q : ℚ)
  | pinf
  | ninf
  | nan
deriving DecidableEq

/-- IEEE `<` on doubles: any comparison with NaN is false; `+inf` is above
every finite value and `-inf`, and nothing is above `+inf`. -/
def PyFloat.lt : PyFloat → PyFloat → Bool
  | .fin a, .fin b => decide (a < b)
  | .fin _, .pinf => true
  | .ninf, .fin _ => true
  | .ninf, .pinf => true
  | _, _ => false

/-- `np.where(delta > maxgap)[0] + 1` when `maxgap` is a float that may be
NaN or infinite (the data deltas themselves are finite). -/
def whgapFloat (values : List ℚ) (maxgap : PyFloat) : List Nat :=
  ((List.range (adjacentDeltas values).length).filter
    (fun i => PyFloat.lt maxgap (.fin ((adjacentDeltas values).getD i 0)))).map (fun i => i + 1)

/-- `slice_around_gaps(values, maxgap)` with `maxgap` as an IEEE double:
the same lines as `slice_around_gaps`, keeping the float semantics of the
`not (maxgap > 0)` guard (NaN fails it, `+inf` passes it) and of the
`delta > maxgap` comparison. -/
def slice_around_gaps_float (values : List ℚ) (maxgap : PyFloat) :
    Except Err (List (Option Nat × Option Nat)) :=
  if ¬ PyFloat.lt (.fin 0) maxgap then .error .configurationError
  else if (adjacentDeltas values).any (fun d => decide (d < 0)) then .error .orderError
  else .ok (slicesFrom none (whgapFloat values maxgap))

/-- The inner loop of `slice_evenly_with_gaps` over one gap-free run:
`offset` accumulates `segment_len`; `next = start + int(round(offset))`;
a slice `(prev, next)` is yielded when it is nonempty. -/
def evenLoop (start : ℤ) (seglen : ℚ) : Nat → ℚ → ℤ → List (ℤ × ℤ)
  | 0, _, _ => []
  | n + 1, offset, prev =>
    (if prev < start + pyRound (offset + seglen) then
      [(prev, start + pyRound (offset + seglen))] else [])
      ++ evenLoop start seglen n (offset + seglen) (start + pyRound (offset + seglen))

/-- `nsegments` of `slice_evenly_with_gaps`:
`min(max(int(floor(num_elements / target_len)), 1), num_elements)`. -/
def nsegOf (target_len : ℚ) (num : Nat) : Nat :=
  (min (max ⌊(num : ℚ) / target_len⌋ 1) (num : ℤ)).toNat

/-- The slices the `slice_evenly_with_gaps` loop yields for one run once
`segment_len` has been computed: resolve the run against length `l` with
`slice.indices` and run the rounding loop with
`segment_len = num_elements / nsegments`. -/
def runSegmentsCore (l : Nat) (target_len : ℚ) (gs : Option Nat × Option Nat) :
    List (ℤ × ℤ) :=
  let se := sliceIndices l gs
  let num : Nat := se.2 - se.1
  evenLoop (se.1 : ℤ) ((num : ℚ) / (nsegOf target_len num : ℚ)) (nsegOf target_len num) 0
    (se.1 : ℤ)

/-- The body of `slice_evenly_with_gaps` for one run:
`segment_len = num_elements / nsegments` is Python true division of two
ints, so `nsegments = 0` (an empty run, i.e. empty input) raises
`ZeroDivisionError` before the loop. -/
def runSegments (l : Nat) (target_len : ℚ) (gs : Option Nat × Option Nat) :
    Except Err (List (ℤ × ℤ)) :=
  if nsegOf target_len ((sliceIndices l gs).2 - (sliceIndices l gs).1) = 0 then
    .error .zeroDivisionError
  else .ok (runSegmentsCore l target_len gs)

/-- The generator's traversal of the runs of `slice_around_gaps`: the yielded
slices of all runs in order, stopping at the first raised error. -/
def runsSegmentsAll (l : Nat) (target_len : ℚ) :
    List (Option Nat × Option Nat) → Except Err (List (ℤ × ℤ))
  | [] => .ok []
  | gs :: rest =>
    match runSegments l target_len gs with
    | .error e => .error e
    | .ok seg =>
      match runsSegmentsAll l target_len rest with
      | .error e => .error e
      | .ok segs => .ok (seg ++ segs)

/-- `slice_evenly_with_gaps(values, target_len, maxgap)`: validates
`target_len > 0`, then subdivides every gap-free run of
`slice_around_gaps` into `nsegments` nearly equal slices (raising
`ZeroDivisionError` on an empty run). -/
def slice_evenly_with_gaps (values : List ℚ) (target_len maxgap : ℚ) :
    Except Err (List (ℤ × ℤ)) :=
  if ¬ 0 < target_len then .error .configurationError
  else
    match slice_around_gaps values maxgap with
    | .error e => .error e
    | .ok sls => runsSegmentsAll values.length target_len sls

/-- `np.average(x, weights=w) = (Σ wᵢ xᵢ) / (Σ wᵢ)`. -/
def np_average (x weights : List ℚ) : ℚ :=
  (List.zipWith (fun a b => a * b) x weights).sum / weights.sum

/-- `weighted_variance(x, weights)`: raises what the spec calls a
`SampleSizeError` for fewer than three samples, otherwise returns
`np.average((x - wt_mean)**2, weights) * n / (n - 1)`. -/
def weighted_variance (x weights : List ℚ) : Except Err ℚ :=
  if x.length < 3 then .error .sampleSizeError
  else
    .ok (np_average (x.map (fun v => (v - np_average x weights) ^ 2)) weights
      * (x.length : ℚ) / ((x.length : ℚ) - 1))

/-- `np.convolve(q, r, mode='valid')` for `r.length ≤ q.length`:
position `j` holds `Σ_{t<m} q[j+t] * r[m-1-t]` (the kernel is reversed),
and the output has `q.length - r.length + 1` positions. -/
def convValid {α : Type} [Field α] (q r : List α) : List α :=
  (List.range (q.length - r.length + 1)).map (fun j =>
    ((List.range r.length).map (fun t => q.getD (j + t) 0 * r.getD (r.length - 1 - t) 0)).sum)

/-- `usmooth(window, uncerts, *data, k=None)`: weights `w = uncerts ** -2`;
smoothed uncertainty `sqrt(conv(w, window**2)) / conv(w, window)`, smoothed
data `conv(w*x, window) / conv(w, window)`, every series then decimated by
`k` (defaulting to the window size) unless `k = 1`.  The floating-point
square root is passed explicitly to keep the definition computable. -/
def usmooth {α : Type} [Field α] (sqrt : α → α) (window uncerts : List α)
    (data : List (List α)) (k : Option Nat) : List (List α) :=
  let kk := k.getD window.length
  let w := uncerts.map (fun u => (u ^ 2)⁻¹)
  let cw := convValid w window
  let cu := List.zipWith (fun a b => a / b)
    ((convValid w (window.map (fun t => t ^ 2))).map sqrt) cw
  let result := cu :: data.map (fun x =>
    List.zipWith (fun a b => a / b) (convValid (List.zipWith (fun a b => a * b) w x) window) cw)
  if kk ≠ 1 then result.map (everyKth kk) else result

/-- A pandas `DataFrame`: named columns over one cell type plus a row index
of integer labels. -/
structure DataFrame (α : Type) where
  cols : List (String × List α)
  index : List ℤ
deriving DecidableEq

/-- Column access `df[name]` (empty if absent). -/
def DataFrame.col {α : Type} (df : DataFrame α) (name : String) : List α :=
  match df.cols.find? (fun c => decide (c.1 = name)) with
  | some c => c.2
  | none => []

/-- `df.iloc[a:b]` for nonnegative endpoints: positional row slicing. -/
def DataFrame.iloc {α : Type} (df : DataFrame α) (sl : ℤ × ℤ) : DataFrame α :=
  ⟨df.cols.map (fun c => (c.1, (c.2.drop sl.1.toNat).take (sl.2.toNat - sl.1.toNat))),
   (df.index.drop sl.1.toNat).take (sl.2.toNat - sl.1.toNat)⟩

/-- The default `RangeIndex` pandas gives a frame built from a dict. -/
def defaultIndex (n : Nat) : List ℤ :=
  (List.range n).map Int.ofNat

/-- `df.loc[label, cname] = v`: update the cell in an existing column, or
append a fresh column first (pandas fills it with NaN, modelled by `fill`;
every theorem below overwrites all such cells). -/
def DataFrame.locSet {α : Type} (df : DataFrame α) (fill : α) (label : ℤ) (cname : String)
    (v : α) : DataFrame α :=
  let pos := df.index.indexOf label
  if df.cols.any (fun c => decide (c.1 = cname)) then
    ⟨df.cols.map (fun c => if c.1 = cname then (c.1, c.2.set pos v) else c), df.index⟩
  else
    ⟨df.cols ++ [(cname, (List.replicate df.index.length fill).set pos v)], df.index⟩

/-- `dfsmooth(window, df, ucol, k=None)`: per-column valid-mode convolution
weighted by `w = df[ucol] ** -2`; the frame built from the results gets the
default integer index, and `res[::k]` keeps every `k`-th row. -/
def dfsmooth {α : Type} [Field α] (sqrt : α → α) (window : List α) (df : DataFrame α)
    (ucol : String) (k : Option Nat) : DataFrame α :=
  let kk := k.getD window.length
  let w := (df.col ucol).map (fun u => (u ^ 2)⁻¹)
  let invcw := (convValid w window).map (fun a => a⁻¹)
  let res := df.cols.map (fun c =>
    if c.1 = ucol then
      (c.1, List.zipWith (fun a b => a * b)
        ((convValid w (window.map (fun t => t ^ 2))).map sqrt) invcw)
    else
      (c.1, List.zipWith (fun a b => a * b)
        (convValid (List.zipWith (fun a b => a * b) w c.2) window) invcw))
  ⟨res.map (fun c => (c.1, everyKth kk c.2)),
   everyKth kk (defaultIndex ((res.head?.map (fun c => c.2.length)).getD 0))⟩

/-- `weighted_mean(values, uncerts)`: weights `uncerts ** -2`; returns the
weighted average and `(Σ weights) ** -0.5`. -/
def weighted_mean {α : Type} [Field α] (sqrt : α → α) (values uncerts : List α) : α × α :=
  let weights := uncerts.map (fun u => (u ^ 2)⁻¹)
  ((List.zipWith (fun a b => a * b) values weights).sum / weights.sum, (sqrt weights.sum)⁻¹)

/-- Minimum of a pandas series (`fill` for the empty series). -/
def listMin {α : Type} [LinearOrder α] (fill : α) : List α → α
  | [] => fill
  | x :: xs => xs.foldl min x

/-- Maximum of a pandas series (`fill` for the empty series). -/
def listMax {α : Type} [LinearOrder α] (fill : α) : List α → α
  | [] => fill
  | x :: xs => xs.foldl max x

/-- One iteration of the `reduce_data_frame` loop: writes the chunk size and
the requested aggregates of chunk `subd` into row `i` of the accumulator. -/
def reduceChunkRow {α : Type} [LinearOrderedField α] (sqrt : α → α) (fill : α)
    (avg_cols uavg_cols minmax_cols : List String) (nchunk_colname upre : String)
    (ch : DataFrame α) (i : Nat) (subd : DataFrame α) : DataFrame α :=
  let label := ch.index.getD i 0
  let ch1 := ch.locSet fill label nchunk_colname ((subd.index.length : α))
  let ch2 := avg_cols.foldl (fun acc c =>
    acc.locSet fill label c ((subd.col c).sum / ((subd.col c).length : α))) ch1
  let ch3 := uavg_cols.foldl (fun acc c =>
    let vu := weighted_mean sqrt (subd.col c) (subd.col (upre ++ c))
    (acc.locSet fill label c vu.1).locSet fill label (upre ++ c) vu.2) ch2
  minmax_cols.foldl (fun acc c =>
    (acc.locSet fill label ("min_" ++ c) (listMin fill (subd.col c))).locSet fill label
      ("max_" ++ c) (listMax fill (subd.col c))) ch3

/-- `reduce_data_frame(df, chunk_slicers, ...)`: slice chunks with `iloc`,
drop chunks smaller than `min_points_per_chunk`, start from a frame holding
only the `nchunk` column of zeros with the default index, then fill one row
per surviving chunk. -/
def reduce_data_frame {α : Type} [LinearOrderedField α] (sqrt : α → α) (fill : α)
    (df : DataFrame α) (chunk_slicers : List (ℤ × ℤ))
    (avg_cols uavg_cols minmax_cols : List String)
    (nchunk_colname upre : String) (min_points_per_chunk : Nat) : DataFrame α :=
  let subds := (chunk_slicers.map df.iloc).filter
    (fun sd => decide (min_points_per_chunk ≤ sd.index.length))
  let chunked : DataFrame α :=
    ⟨[(nchunk_colname, List.replicate subds.length 0)], defaultIndex subds.length⟩
  subds.enum.foldl (fun ch p =>
    reduceChunkRow sqrt fill avg_cols uavg_cols minmax_cols nchunk_colname upre ch p.1 p.2)
    chunked

/-- A Python value that is either an argument tuple or a single value, as
passed for `par_args` / `simple_args`. -/
inductive PyArg (α : Type) where
  | tup (xs : List α)
  | val (x : α)
deriving DecidableEq

/-- `parallel_newton(func, x0, ...)` in the all-scalar case: validates that
`par_args` and `simple_args` are tuples, then performs the single dispatch
`newton(func, x0, args=par_args + simple_args)` through the external
root-finding collaborator `newton`. -/
def parallel_newton {α β γ : Type} (newton : γ → α → List α → β) (func : γ) (x0 : α)
    (par_args simple_args : PyArg α) : Except Err β :=
  match par_args with
  | .val _ => .error .configurationError
  | .tup ps =>
    match simple_args with
    | .val _ => .error .configurationError
    | .tup ss => .ok (newton func x0 (ps ++ ss))

/-- `parallel_quad(func, a, b, ...)` in the all-scalar case: validates that
`par_args` and `simple_args` are tuples, then performs the single dispatch
`quad(func, a, b, par_args + simple_args)` through the external integration
collaborator `quad`, returning the (integral, error-estimate) pair. -/
def parallel_quad {α β γ : Type} (quad : γ → α → α → List α → β × β) (func : γ) (a b : α)
    (par_args simple_args : PyArg α) : Except Err (β × β) :=
  match par_args with
  | .val _ => .error .configurationError
  | .tup ps =>
    match simple_args with
    | .val _ => .error .configurationError
    | .tup ss => .ok (quad func a b (ps ++ ss))

/-- An n-dimensional NumPy array over one dtype: a shape and the row-major
flat data.  A scalar has shape `[]` and a single data element. -/
structure NDArr where
  shape : List Nat
  data : List ℚ
deriving DecidableEq

/-- `np.atleast_1d`: promote a 0-d array to shape `(1,)`. -/
def NDArr.atleast_1d (a : NDArr) : NDArr :=
  if a.shape = [] then ⟨[1], a.data⟩ else a

/-- `np.asscalar` of a size-1 array: its unique element. -/
def NDArr.asscalar (a : NDArr) : ℚ :=
  a.data.headD 0

/-- A Python value returned to the caller: a scalar, an array, or a tuple. -/
inductive PyVal where
  | scalar (q : ℚ)
  | array (a : NDArr)
  | tupOut (xs : List PyVal)

/-- `unit_tophat_ee(x)`: 1 where `0 < x < 1`, else 0, on the promoted input;
demoted back to a scalar when the input was 0-d. -/
def unit_tophat_ee (x : NDArr) : PyVal :=
  let x1 := x.atleast_1d
  let r : NDArr := ⟨x1.shape, x1.data.map (fun v => if 0 < v ∧ v < 1 then (1 : ℚ) else 0)⟩
  if x.shape.length = 0 then .scalar r.asscalar else .array r

/-- `unit_tophat_ei(x)`: 1 where `0 < x ≤ 1`, else 0. -/
def unit_tophat_ei (x : NDArr) : PyVal :=
  let x1 := x.atleast_1d
  let r : NDArr := ⟨x1.shape, x1.data.map (fun v => if 0 < v ∧ v ≤ 1 then (1 : ℚ) else 0)⟩
  if x.shape.length = 0 then .scalar r.asscalar else .array r

/-- `unit_tophat_ie(x)`: 1 where `0 ≤ x < 1`, else 0. -/
def unit_tophat_ie (x : NDArr) : PyVal :=
  let x1 := x.atleast_1d
  let r : NDArr := ⟨x1.shape, x1.data.map (fun v => if 0 ≤ v ∧ v < 1 then (1 : ℚ) else 0)⟩
  if x.shape.length = 0 then .scalar r.asscalar else .array r

/-- `unit_tophat_ii(x)`: 1 where `0 ≤ x ≤ 1`, else 0. -/
def unit_tophat_ii (x : NDArr) : PyVal :=
  let x1 := x.atleast_1d
  let r : NDArr := ⟨x1.shape, x1.data.map (fun v => if 0 ≤ v ∧ v ≤ 1 then (1 : ℚ) else 0)⟩
  if x.shape.length = 0 then .scalar r.asscalar else .array r

/-- The closure returned by `make_tophat_ee(lower, upper)` (the `np.isfinite`
guards on the bounds always pass on exact rationals). -/
def make_tophat_ee (lower upper : ℚ) : NDArr → PyVal := fun x =>
  let x1 := x.atleast_1d
  let r : NDArr :=
    ⟨x1.shape, x1.data.map (fun v => if lower < v ∧ v < upper then (1 : ℚ) else 0)⟩
  if x.shape.length = 0 then .scalar r.asscalar else .array r

/-- The closure returned by `make_tophat_ei(lower, upper)`. -/
def make_tophat_ei (lower upper : ℚ) : NDArr → PyVal := fun x =>
  let x1 := x.atleast_1d
  let r : NDArr :=
    ⟨x1.shape, x1.data.map (fun v => if lower < v ∧ v ≤ upper then (1 : ℚ) else 0)⟩
  if x.shape.length = 0 then .scalar r.asscalar else .array r

/-- The closure returned by `make_tophat_ie(lower, upper)`. -/
def make_tophat_ie (lower upper : ℚ) : NDArr → PyVal := fun x =>
  let x1 := x.atleast_1d
  let r : NDArr :=
    ⟨x1.shape, x1.data.map (fun v => if lower ≤ v ∧ v < upper then (1 : ℚ) else 0)⟩
  if x.shape.length = 0 then .scalar r.asscalar else .array r

/-- The closure returned by `make_tophat_ii(lower, upper)`. -/
def make_tophat_ii (lower upper : ℚ) : NDArr → PyVal := fun x =>
  let x1 := x.atleast_1d
  let r : NDArr :=
    ⟨x1.shape, x1.data.map (fun v => if lower ≤ v ∧ v ≤ upper then (1 : ℚ) else 0)⟩
  if x.shape.length = 0 then .scalar r.asscalar else .array r

/-- NumPy broadcasting of two shapes, aligned from the trailing dimension:
equal sizes match and size 1 stretches. -/
def bcastRev : List Nat → List Nat → Option (List Nat)
  | [], t => some t
  | a :: s, [] => some (a :: s)
  | a :: s, b :: t =>
    match bcastRev s t with
    | none => none
    | some r =>
      if a = b then some (a :: r)
      else if a = 1 then some (b :: r)
      else if b = 1 then some (a :: r)
      else none

/-- Broadcast two shapes (given most-significant first). -/
def broadcastShapes2 (s t : List Nat) : Option (List Nat) :=
  (bcastRev s.reverse t.reverse).map List.reverse

/-- The common broadcast shape of a list of shapes. -/
def commonShape : List (List Nat) → Option (List Nat)
  | [] => some []
  | s :: rest =>
    match commonShape rest with
    | none => none
    | some t => broadcastShapes2 s t

/-- All multi-indices of a shape in row-major (C) order. -/
def allIdx : List Nat → List (List Nat)
  | [] => [[]]
  | n :: rest => ((List.range n).map (fun i => (allIdx rest).map (fun idx => i :: idx))).flatten

/-- Read element `idx` of `a` under broadcasting: leading axes of `idx` beyond
the rank of `a` are dropped, size-1 axes of `a` are read at 0, and the
position is flattened row-major. -/
def NDArr.broadcastRead (a : NDArr) (idx : List Nat) : ℚ :=
  let idx2 := idx.drop (idx.length - a.shape.length)
  let pos := (a.shape.zip idx2).foldl (fun acc p => acc * p.1 + (if p.1 = 1 then 0 else p.2)) 0
  a.data.getD pos 0

/-- `np.broadcast_to`: materialise `a` at shape `sh`. -/
def NDArr.broadcastTo (a : NDArr) (sh : List Nat) : NDArr :=
  ⟨sh, (allIdx sh).map a.broadcastRead⟩

/-- `np.broadcast_arrays`: broadcast every argument to the common shape,
`none` on incompatible shapes (NumPy raises). -/
def broadcast_arrays (args : List NDArr) : Option (List NDArr) :=
  (commonShape (args.map NDArr.shape)).map (fun sh => args.map (fun a => a.broadcastTo sh))

/-- One entry of the `@broadcastize` return-shape specification:
`None` (pass through), `0` (demote to scalar), or `1` (strip the final
axis with `np.asarray(x)[..., 0]`). -/
inductive ScalarSpec where
  | passVal
  | demoteScalar
  | dropLastAxis
deriving DecidableEq

/-- A `@broadcastize` return-shape specification: a single entry or a tuple
of entries (any other value raises a `ConfigurationError` at decoration). -/
inductive RetSpec where
  | single (s : ScalarSpec)
  | tup (ss : List ScalarSpec)

/-- The scalar filter `_broadcastize_spec_to_scalar_filter(s)` applied when
all leading inputs were scalars.  The NumPy filters are only specified on
array return values; other values are left unchanged here. -/
def scalarFilter : ScalarSpec → PyVal → PyVal
  | .passVal, x => x
  | .demoteScalar, .array a => .scalar a.asscalar
  | .demoteScalar, x => x
  | .dropLastAxis, .array a => .array ⟨a.shape.dropLast, everyKth (a.shape.getLastD 1) a.data⟩
  | .dropLastAxis, x => x

/-- The scalar-return filter of a full return-shape specification: a tuple
specification maps its entries over a tuple result. -/
def retFilter : RetSpec → PyVal → PyVal
  | .single s, x => scalarFilter s x
  | .tup ss, .tupOut xs => .tupOut (List.zipWith scalarFilter ss xs)
  | .tup _, x => x

/-- `_Broadcaster.__call__`: checks the arity, broadcasts the first `n_arr`
arguments, promotes them with `np.atleast_1d`, calls the wrapped function
with the remaining arguments unchanged, and demotes the result via the
return-shape filter when the broadcast input was 0-dimensional. -/
def broadcaster_call (n_arr : Nat) (spec : RetSpec) (f : List NDArr → List NDArr → PyVal)
    (args : List NDArr) : Except Err PyVal :=
  if args.length < n_arr then .error .arityError
  else
    match broadcast_arrays (args.take n_arr) with
    | none => .error .shapeError
    | some bc_raw =>
      let bc_1d := bc_raw.map NDArr.atleast_1d
      let result := f bc_1d (args.drop n_arr)
      match bc_raw.head? with
      | none => .ok result
      | some a0 => .ok (if a0.shape = [] then retFilter spec result else result)

theorem adjacentDeltas_length (values : List ℚ) :
    (adjacentDeltas values).length = values.length - 1 := by
  simp [adjacentDeltas]

theorem adjacentDeltas_getD (values : List ℚ) (i : Nat)
    (h : i < (adjacentDeltas values).length) :
    (adjacentDeltas values).getD i 0 = values.getD (i + 1) 0 - values.getD i 0 := by
  have hlen := adjacentDeltas_length values
  have hL : i + 1 < values.length := by omega
  rw [List.getD_eq_getElem _ _ h, List.getD_eq_getElem _ _ hL,
    List.getD_eq_getElem _ _ (by omega : i < values.length)]
  simp [adjacentDeltas, List.getElem_zipWith, List.getElem_tail]

theorem mem_whgap {values : List ℚ} {maxgap : ℚ} {x : Nat} :
    x ∈ whgap values maxgap ↔
      ∃ i, i < (adjacentDeltas values).length ∧ x = i + 1 ∧
        maxgap < (adjacentDeltas values).getD i 0 := by
  simp only [whgap, List.mem_map, List.mem_filter, List.mem_range, decide_eq_true_eq]
  constructor
  · rintro ⟨i, ⟨h1, h2⟩, h3⟩
    exact ⟨i, h1, h3.symm, h2⟩
  · rintro ⟨i, h1, h2, h3⟩
    exact ⟨i, ⟨h1, h3⟩, h2.symm⟩

theorem whgap_bounds {values : List ℚ} {maxgap : ℚ} {x : Nat}
    (h : x ∈ whgap values maxgap) : 1 ≤ x ∧ x ≤ values.length - 1 := by
  obtain ⟨i, hi, rfl, _⟩ := mem_whgap.mp h
  have := adjacentDeltas_length values
  omega

theorem whgap_pairwise (values : List ℚ) (maxgap : ℚ) :
    (whgap values maxgap).Pairwise (· < ·) := by
  unfold whgap
  refine List.pairwise_map.mpr ?_
  exact ((List.pairwise_lt_range _).filter _).imp (by omega)

theorem whgap_pairwise_zero (values : List ℚ) (maxgap : ℚ) :
    (0 :: whgap values maxgap).Pairwise (· < ·) := by
  refine List.pairwise_cons.mpr ⟨?_, whgap_pairwise values maxgap⟩
  intro x hx
  have := (whgap_bounds hx).1
  omega

theorem slicesFrom_map_resolve (L : Nat) :
    ∀ (g : List Nat) (o : Option Nat),
      (slicesFrom o g).map (resolveSlice L) = (o.getD 0 :: g).zip (g ++ [L])
  | [], o => by simp [slicesFrom, resolveSlice]
  | x :: xs, o => by
    simp [slicesFrom, resolveSlice, slicesFrom_map_resolve L xs (some x)]

theorem resolvedSlices_eq (values : List ℚ) (maxgap : ℚ) :
    resolvedSlices values maxgap =
      (0 :: whgap values maxgap).zip (whgap values maxgap ++ [values.length]) := by
  simp [resolvedSlices, gapSlices, slicesFrom_map_resolve]

theorem zip_boundary_bounds (L : Nat) :
    ∀ (g : List Nat) (s : Nat), (s :: g).Pairwise (· ≤ ·) → (∀ x ∈ g, x ≤ L) → s ≤ L →
      ∀ p ∈ (s :: g).zip (g ++ [L]), s ≤ p.1 ∧ p.1 ≤ p.2 ∧ p.2 ≤ L
  | [], s, _, _, hsL => by
    intro p hp
    simp at hp
    subst hp
    exact ⟨le_refl s, hsL, le_refl L⟩
  | x :: xs, s, hpw, hub, hsL => by
    rw [List.cons_append, List.zip_cons_cons]
    intro p hp
    have hsx : s ≤ x := (List.pairwise_cons.mp hpw).1 x (by simp)
    rcases List.mem_cons.mp hp with rfl | hmem
    · exact ⟨le_refl s, hsx, hub x (by simp)⟩
    · have ih := zip_boundary_bounds L xs x (List.pairwise_cons.mp hpw).2
        (fun y hy => hub y (by simp [hy])) (hub x (by simp)) p hmem
      exact ⟨le_trans hsx ih.1, ih.2.1, ih.2.2⟩

theorem zip_boundary_flatten (L : Nat) :
    ∀ (g : List Nat) (s : Nat), (s :: g).Pairwise (· ≤ ·) → (∀ x ∈ g, x ≤ L) → s ≤ L →
      (((s :: g).zip (g ++ [L])).map (fun p => List.range' p.1 (p.2 - p.1))).flatten
        = List.range' s (L - s)
  | [], s, _, _, _ => by simp
  | x :: xs, s, hpw, hub, hsL => by
    have hsx : s ≤ x := (List.pairwise_cons.mp hpw).1 x (by simp)
    have hxL : x ≤ L := hub x (by simp)
    rw [List.cons_append, List.zip_cons_cons, List.map_cons, List.flatten_cons,
      zip_boundary_flatten L xs x (List.pairwise_cons.mp hpw).2
        (fun y hy => hub y (by simp [hy])) hxL]
    have happ := List.range'_append s (x - s) (L - x) 1
    rw [show s + 1 * (x - s) = x by omega] at happ
    rw [happ, show L - x + (x - s) = L - s by omega]

theorem zip_boundary_pairwise (L : Nat) :
    ∀ (g : List Nat) (s : Nat), (s :: g).Pairwise (· ≤ ·) →
      ((s :: g).zip (g ++ [L])).Pairwise (fun p q : Nat × Nat => p.2 ≤ q.1)
  | [], s, _ => by simp
  | x :: xs, s, hpw => by
    rw [List.cons_append, List.zip_cons_cons]
    refine List.pairwise_cons.mpr
      ⟨?_, zip_boundary_pairwise L xs x (List.pairwise_cons.mp hpw).2⟩
    rintro ⟨a, b⟩ hq
    have ha : a ∈ x :: xs := (List.of_mem_zip hq).1
    rcases List.mem_cons.mp ha with rfl | h
    · exact le_refl _
    · exact (List.pairwise_cons.mp (List.pairwise_cons.mp hpw).2).1 a h

theorem zip_boundary_no_inside (L : Nat) :
    ∀ (g : List Nat) (s : Nat), (s :: g).Pairwise (· < ·) →
      ∀ p ∈ (s :: g).zip (g ++ [L]), ∀ x ∈ g, ¬(p.1 < x ∧ x < p.2)
  | [], _, _ => by
    intro p _ x hx
    simp at hx
  | y :: ys, s, hpw => by
    rw [List.cons_append, List.zip_cons_cons]
    intro p hp x hx
    rcases List.mem_cons.mp hp with rfl | hpmem
    · rcases List.mem_cons.mp hx with rfl | hxmem
      · exact fun h => lt_irrefl _ h.2
      · have : y < x := (List.pairwise_cons.mp (List.pairwise_cons.mp hpw).2).1 x hxmem
        exact fun h => absurd h.2 (by omega)
    · rcases List.mem_cons.mp hx with rfl | hxmem
      · obtain ⟨a, b⟩ := p
        have ha : a ∈ x :: ys := (List.of_mem_zip hpmem).1
        have hxa : x ≤ a := by
          rcases List.mem_cons.mp ha with rfl | h
          · exact le_refl _
          · exact le_of_lt ((List.pairwise_cons.mp (List.pairwise_cons.mp hpw).2).1 a h)
        exact fun h => absurd h.1 (by omega)
      · exact zip_boundary_no_inside L ys y (List.pairwise_cons.mp hpw).2 p hpmem x hxmem

theorem adjacentDeltas_nonneg {values : List ℚ} (hmono : List.Chain' (· ≤ ·) values) :
    ∀ d ∈ adjacentDeltas values, 0 ≤ d := by
  intro d hd
  obtain ⟨i, hi, rfl⟩ := List.mem_iff_getElem.mp hd
  have hlen := adjacentDeltas_length values
  simp only [adjacentDeltas, List.getElem_zipWith, List.getElem_tail]
  refine sub_nonneg.mpr ?_
  have h := List.chain'_iff_get.mp hmono i (by simp [adjacentDeltas] at hi; omega)
  simpa using h

theorem slice_around_gaps_ok {values : List ℚ} {maxgap : ℚ} (hpos : 0 < maxgap)
    (hmono : List.Chain' (· ≤ ·) values) :
    slice_around_gaps values maxgap = .ok (gapSlices values maxgap) := by
  have h1 : ((adjacentDeltas values).any fun d => decide (d < 0)) = false := by
    rw [List.any_eq_false]
    intro d hd
    simp only [decide_eq_true_eq]
    exact not_lt.mpr (adjacentDeltas_nonneg hmono d hd)
  simp [slice_around_gaps, hpos, h1]

theorem adjacentDeltas_any_lt (values : List ℚ) :
    ((adjacentDeltas values).any fun d => decide (d < 0)) = true ↔
      ∃ i, i + 1 < values.length ∧ values.getD (i + 1) 0 < values.getD i 0 := by
  have hlen := adjacentDeltas_length values
  rw [List.any_eq_true]
  constructor
  · rintro ⟨d, hd, hlt⟩
    simp only [decide_eq_true_eq] at hlt
    obtain ⟨i, hi, rfl⟩ := List.mem_iff_getElem.mp hd
    refine ⟨i, by omega, ?_⟩
    have h := adjacentDeltas_getD values i hi
    rw [List.getD_eq_getElem _ _ hi] at h
    rw [h] at hlt
    exact sub_neg.mp hlt
  · rintro ⟨i, hL, hlt⟩
    have hi : i < (adjacentDeltas values).length := by omega
    refine ⟨(adjacentDeltas values).getD i 0, ?_, ?_⟩
    · rw [List.getD_eq_getElem _ _ hi]
      exact List.getElem_mem _
    · simp only [decide_eq_true_eq]
      rw [adjacentDeltas_getD values i hi]
      exact sub_neg.mpr hlt

/-- Claim C1: for every non-decreasing rational sequence and positive
`maxgap`, `slice_around_gaps` yields without error slices that — with `None`
endpoints read as `0` and the length — are pairwise disjoint and in
increasing order, each well-formed and within bounds, whose concatenated
index ranges are exactly `[0, length)`, and whose interiors contain no
adjacent difference exceeding `maxgap`; on `[1,2,3,10,11]` with `maxgap = 2`
exactly the two slices covering `[0,3)` and `[3,5)` are yielded. -/
theorem slice_around_gaps_partition (values : List ℚ) (maxgap : ℚ)
    (hmono : List.Chain' (· ≤ ·) values) (hpos : 0 < maxgap) :
    slice_around_gaps values maxgap = .ok (gapSlices values maxgap)
    ∧ (resolvedSlices values maxgap).Pairwise (fun p q => p.2 ≤ q.1)
    ∧ (∀ p ∈ resolvedSlices values maxgap, p.1 ≤ p.2 ∧ p.2 ≤ values.length)
    ∧ ((resolvedSlices values maxgap).map (fun p => List.range' p.1 (p.2 - p.1))).flatten
        = List.range values.length
    ∧ (∀ p ∈ resolvedSlices values maxgap, ∀ i, p.1 ≤ i → i + 1 < p.2 →
        values.getD (i + 1) 0 - values.getD i 0 ≤ maxgap)
    ∧ resolvedSlices [1, 2, 3, 10, 11] 2 = [(0, 3), (3, 5)] := by
  have hpw_lt := whgap_pairwise_zero values maxgap
  have hpw_le : (0 :: whgap values maxgap).Pairwise (· ≤ ·) := hpw_lt.imp le_of_lt
  have hub : ∀ x ∈ whgap values maxgap, x ≤ values.length := by
    intro x hx
    have := whgap_bounds hx
    omega
  refine ⟨slice_around_gaps_ok hpos hmono, ?_, ?_, ?_, ?_, ?_⟩
  · rw [resolvedSlices_eq]
    exact zip_boundary_pairwise values.length _ 0 hpw_le
  · rw [resolvedSlices_eq]
    intro p hp
    have := zip_boundary_bounds values.length _ 0 hpw_le hub (Nat.zero_le _) p hp
    exact ⟨this.2.1, this.2.2⟩
  · rw [resolvedSlices_eq]
    rw [zip_boundary_flatten values.length _ 0 hpw_le hub (Nat.zero_le _)]
    rw [List.range_eq_range', Nat.sub_zero]
  · intro p hp i hpi hi2
    have hbds := zip_boundary_bounds values.length _ 0 hpw_le hub (Nat.zero_le _) p
      (by rwa [resolvedSlices_eq] at hp)
    by_contra hgt
    push_neg at hgt
    have hlen : i < (adjacentDeltas values).length := by
      have := adjacentDeltas_length values
      omega
    have hmem : (i + 1) ∈ whgap values maxgap := by
      refine mem_whgap.mpr ⟨i, hlen, rfl, ?_⟩
      rwa [adjacentDeltas_getD values i hlen]
    exact zip_boundary_no_inside values.length _ 0 hpw_lt p
      (by rwa [resolvedSlices_eq] at hp) (i + 1) hmem ⟨by omega, hi2⟩
  · norm_num [resolvedSlices, gapSlices, whgap, adjacentDeltas, List.range_succ, slicesFrom,
      resolveSlice]

theorem slice_around_gaps_partition_witness :
    slice_around_gaps [1, 2, 3, 10, 11] 2 = .ok (gapSlices [1, 2, 3, 10, 11] 2)
    ∧ resolvedSlices [1, 2, 3, 10, 11] 2 = [(0, 3), (3, 5)] := by
  have h := slice_around_gaps_partition [1, 2, 3, 10, 11] 2
    (by norm_num [List.chain'_cons, List.chain'_singleton]) (by norm_num)
  exact ⟨h.1, h.2.2.2.2.2⟩

theorem PyFloat.lt_pinf (x : PyFloat) : PyFloat.lt .pinf x = false := by
  cases x <;> rfl

theorem whgapFloat_pinf (values : List ℚ) : whgapFloat values .pinf = [] := by
  simp [whgapFloat, PyFloat.lt_pinf]

theorem whgapFloat_fin (values : List ℚ) (q : ℚ) :
    whgapFloat values (.fin q) = whgap values q := rfl

theorem slice_around_gaps_float_fin (values : List ℚ) (q : ℚ) :
    slice_around_gaps_float values (.fin q) = slice_around_gaps values q := by
  rw [slice_around_gaps_float, slice_around_gaps]
  simp only [whgapFloat_fin, gapSlices]
  refine if_congr ?_ rfl (if_congr Iff.rfl rfl rfl)
  simp [PyFloat.lt]

/-- Claim C7 (corrected): `slice_around_gaps` raises the `ConfigurationError`
exactly when `not (maxgap > 0)` holds under IEEE float comparison — that is,
for zero, negative or NaN `maxgap`; positive infinity passes the guard and is
*accepted*, yielding the single covering slice (no delta exceeds `+inf`);
once the guard passes, the `OrderError` is raised exactly when some adjacent
pair of values decreases, and for non-decreasing values the slices are
yielded without error; at finite `maxgap` the float embedding agrees with the
rational one used elsewhere. -/
theorem slice_around_gaps_float_validation (values : List ℚ) (maxgap : PyFloat) :
    (PyFloat.lt (.fin 0) maxgap = false ↔
        maxgap = .nan ∨ maxgap = .ninf ∨ ∃ q, maxgap = .fin q ∧ q ≤ 0)
    ∧ (PyFloat.lt (.fin 0) maxgap = false →
        slice_around_gaps_float values maxgap = .error .configurationError)
    ∧ (PyFloat.lt (.fin 0) maxgap = true →
        (slice_around_gaps_float values maxgap = .error .orderError ↔
          ∃ i, i + 1 < values.length ∧ values.getD (i + 1) 0 < values.getD i 0))
    ∧ (PyFloat.lt (.fin 0) maxgap = true → List.Chain' (· ≤ ·) values →
        slice_around_gaps_float values maxgap
          = .ok (slicesFrom none (whgapFloat values maxgap)))
    ∧ (List.Chain' (· ≤ ·) values →
        slice_around_gaps_float values .pinf = .ok [(none, none)])
    ∧ (∀ q : ℚ, slice_around_gaps_float values (.fin q) = slice_around_gaps values q) := by
  have hanymono : List.Chain' (· ≤ ·) values →
      ((adjacentDeltas values).any fun d => decide (d < 0)) = false := by
    intro hmono
    rw [List.any_eq_false]
    intro d hd
    simp only [decide_eq_true_eq]
    exact not_lt.mpr (adjacentDeltas_nonneg hmono d hd)
  refine ⟨?_, ?_, ?_, ?_, ?_, slice_around_gaps_float_fin values⟩
  · cases maxgap with
    | fin q => simp [PyFloat.lt, not_lt]
    | pinf => simp [PyFloat.lt]
    | ninf => simp [PyFloat.lt]
    | nan => simp [PyFloat.lt]
  · intro h
    rw [slice_around_gaps_float, if_pos (by simp [h])]
  · intro h
    rw [slice_around_gaps_float, if_neg (by simp [h])]
    by_cases hany : ((adjacentDeltas values).any fun d => decide (d < 0)) = true
    · rw [if_pos hany]
      exact iff_of_true rfl ((adjacentDeltas_any_lt values).mp hany)
    · rw [if_neg hany]
      exact iff_of_false (by simp) (fun hex => hany ((adjacentDeltas_any_lt values).mpr hex))
  · intro h hmono
    rw [slice_around_gaps_float, if_neg (by simp [h]), if_neg (by simp [hanymono hmono])]
  · intro hmono
    rw [slice_around_gaps_float, if_neg (by simp [PyFloat.lt]),
      if_neg (by simp [hanymono hmono]), whgapFloat_pinf]
    rfl

theorem slice_around_gaps_float_validation_witness :
    slice_around_gaps_float ([] : List ℚ) (.fin (-1)) = .error .configurationError
    ∧ slice_around_gaps_float [1, 2] .nan = .error .configurationError
    ∧ (slice_around_gaps_float [3, 1] (.fin 2) = .error .orderError ↔
        ∃ i, i + 1 < ([3, 1] : List ℚ).length ∧
          ([3, 1] : List ℚ).getD (i + 1) 0 < ([3, 1] : List ℚ).getD i 0)
    ∧ slice_around_gaps_float [1, 2] .pinf = .ok [(none, none)] :=
  ⟨(slice_around_gaps_float_validation [] (.fin (-1))).2.1 (by norm_num [PyFloat.lt]),
    (slice_around_gaps_float_validation [1, 2] .nan).2.1 rfl,
    (slice_around_gaps_float_validation [3, 1] (.fin 2)).2.2.1 (by norm_num [PyFloat.lt]),
    (slice_around_gaps_float_validation [1, 2] .pinf).2.2.2.2.1
      (by norm_num [List.chain'_cons, List.chain'_singleton])⟩

/-- Claim C7 counterexample: at `maxgap = +inf` the guard `not (maxgap > 0)`
is false, so — contrary to the original claim — no `ConfigurationError` is
raised: the call succeeds and yields the single covering slice. -/
theorem slice_around_gaps_pinf_accepted :
    slice_around_gaps_float [1, 2] PyFloat.pinf = .ok [(none, none)]
    ∧ slice_around_gaps_float [1, 2] PyFloat.pinf ≠ .error .configurationError := by
  have h : slice_around_gaps_float [1, 2] PyFloat.pinf = .ok [(none, none)] := by
    norm_num [slice_around_gaps_float, whgapFloat, adjacentDeltas, PyFloat.lt,
      PyFloat.lt_pinf, slicesFrom, List.range_succ]
  refine ⟨h, ?_⟩
  rw [h]
  simp

/-- Claim C8: `weighted_variance` fails with the `SampleSizeError` exactly for
fewer than three samples; for three or more it returns the weighted mean of
squared deviations from the weighted sample mean, scaled by `n / (n - 1)`;
on `x = [1,2,3]`, `weights = [1,1,1]` it returns exactly `1`. -/
theorem weighted_variance_spec (x weights : List ℚ) :
    (weighted_variance x weights = .error .sampleSizeError ↔ x.length < 3)
    ∧ (3 ≤ x.length → weighted_variance x weights =
        .ok ((List.zipWith (fun v w => (v - np_average x weights) ^ 2 * w) x weights).sum
          / weights.sum * (x.length : ℚ) / ((x.length : ℚ) - 1)))
    ∧ weighted_variance [1, 2, 3] [1, 1, 1] = .ok 1 := by
  refine ⟨?_, ?_, by norm_num [weighted_variance, np_average]⟩
  · by_cases hl : x.length < 3
    · simp [weighted_variance, hl]
    · simp [weighted_variance, hl]
  · intro h
    have hl : ¬ x.length < 3 := by omega
    simp only [weighted_variance, hl, if_false]
    congr 1
    rw [np_average, List.zipWith_map_left]

theorem weighted_variance_spec_witness :
    weighted_variance [1, 2, 3] [1, 1, 1] =
      .ok ((List.zipWith (fun v w => (v - np_average [1, 2, 3] [1, 1, 1]) ^ 2 * w)
          [1, 2, 3] [1, 1, 1]).sum / ([1, 1, 1] : List ℚ).sum
        * (([1, 2, 3] : List ℚ).length : ℚ) / ((([1, 2, 3] : List ℚ).length : ℚ) - 1)) :=
  (weighted_variance_spec [1, 2, 3] [1, 1, 1]).2.1 (by norm_num)

theorem pyRound_zero : pyRound 0 = 0 := by
  norm_num [pyRound]

theorem pyRound_mono {q r : ℚ} (hq : 0 ≤ q) (hle : q ≤ r) : pyRound q ≤ pyRound r := by
  rw [pyRound, pyRound, if_pos hq, if_pos (le_trans hq hle)]
  exact Int.floor_mono (by linarith)

theorem pyRound_natCast (n : Nat) : pyRound (n : ℚ) = n := by
  rw [pyRound, if_pos (by positivity)]
  rw [show ((n : ℚ) + 1 / 2) = ((n : ℤ) : ℚ) + (1 / 2 : ℚ) by push_cast; ring]
  rw [Int.floor_int_add]
  norm_num

theorem pyRound_add_le {q d : ℚ} (hq : 0 ≤ q) (hd : 0 ≤ d) :
    pyRound (q + d) ≤ pyRound q + ⌈d⌉ := by
  rw [pyRound, pyRound, if_pos hq, if_pos (by linarith)]
  have hcle := Int.le_ceil d
  calc ⌊q + d + 1 / 2⌋ ≤ ⌊q + 1 / 2 + (⌈d⌉ : ℚ)⌋ := Int.floor_mono (by linarith)
    _ = ⌊q + 1 / 2⌋ + ⌈d⌉ := Int.floor_add_int _ _

theorem evenLoop_props (start : ℤ) (seglen : ℚ) (hs : 0 ≤ seglen) (n : Nat) :
    ∀ (offset : ℚ), 0 ≤ offset →
      (∀ p ∈ evenLoop start seglen n offset (start + pyRound offset),
          start + pyRound offset ≤ p.1 ∧ p.1 < p.2
            ∧ p.2 ≤ start + pyRound (offset + n * seglen)
            ∧ p.2 - p.1 ≤ ⌈seglen⌉)
      ∧ ((evenLoop start seglen n offset (start + pyRound offset)).map
            (fun p => p.2 - p.1)).sum
          = pyRound (offset + n * seglen) - pyRound offset := by
  induction n with
  | zero =>
    intro offset hoff
    simp [evenLoop]
  | succ n ih =>
    intro offset hoff
    have hoff2 : (0 : ℚ) ≤ offset + seglen := by linarith
    have hmono := pyRound_mono hoff (by linarith : offset ≤ offset + seglen)
    have hns : (0 : ℚ) ≤ (n : ℚ) * seglen := mul_nonneg (Nat.cast_nonneg n) hs
    have hc : offset + ((n + 1 : ℕ) : ℚ) * seglen = offset + seglen + (n : ℚ) * seglen := by
      push_cast
      ring
    obtain ⟨ihmem, ihsum⟩ := ih (offset + seglen) hoff2
    rw [evenLoop, hc]
    constructor
    · intro p hp
      rw [List.mem_append] at hp
      rcases hp with hp | hp
      · by_cases hlt : start + pyRound offset < start + pyRound (offset + seglen)
        · rw [if_pos hlt] at hp
          simp only [List.mem_singleton] at hp
          subst hp
          dsimp only
          refine ⟨le_refl _, hlt, ?_, ?_⟩
          · have := pyRound_mono hoff2 (by linarith :
              offset + seglen ≤ offset + seglen + (n : ℚ) * seglen)
            omega
          · have := pyRound_add_le hoff hs
            omega
        · rw [if_neg hlt] at hp
          simp at hp
      · obtain ⟨h1, h2, h3, h4⟩ := ihmem p hp
        exact ⟨le_trans (by omega) h1, h2, h3, h4⟩
    · by_cases hlt : start + pyRound offset < start + pyRound (offset + seglen)
      · rw [if_pos hlt]
        rw [List.map_append, List.sum_append, ihsum]
        simp only [List.map_cons, List.map_nil, List.sum_cons, List.sum_nil]
        omega
      · rw [if_neg hlt]
        rw [List.nil_append, ihsum]
        have heq : pyRound (offset + seglen) = pyRound offset := by omega
        rw [heq]

theorem nsegOf_ge_one {target_len : ℚ} (ht : 0 < target_len) {num : Nat} (h : 1 ≤ num) :
    1 ≤ nsegOf target_len num ∧ nsegOf target_len num ≤ num := by
  have hfl : (0 : ℤ) ≤ ⌊(num : ℚ) / target_len⌋ := Int.floor_nonneg.mpr (by positivity)
  rw [nsegOf]
  omega

theorem nsegOf_zero (target_len : ℚ) : nsegOf target_len 0 = 0 := by
  rw [nsegOf]
  norm_num

theorem runSegments_props (l : Nat) (target_len : ℚ) (ht : 0 < target_len)
    (gs : Option Nat × Option Nat) (hse : (sliceIndices l gs).1 ≤ (sliceIndices l gs).2) :
    (∀ p ∈ runSegmentsCore l target_len gs,
        ((sliceIndices l gs).1 : ℤ) ≤ p.1 ∧ p.1 < p.2 ∧ p.2 ≤ ((sliceIndices l gs).2 : ℤ)
          ∧ p.2 - p.1 ≤ ⌈(((sliceIndices l gs).2 - (sliceIndices l gs).1 : ℕ) : ℚ)
              / ((nsegOf target_len ((sliceIndices l gs).2 - (sliceIndices l gs).1) : ℕ) : ℚ)⌉)
    ∧ ((runSegmentsCore l target_len gs).map (fun p => p.2 - p.1)).sum
        = ((sliceIndices l gs).2 : ℤ) - ((sliceIndices l gs).1 : ℤ) := by
  have hrun : runSegmentsCore l target_len gs
      = evenLoop ((sliceIndices l gs).1 : ℤ)
          ((((sliceIndices l gs).2 - (sliceIndices l gs).1 : ℕ) : ℚ)
            / ((nsegOf target_len ((sliceIndices l gs).2 - (sliceIndices l gs).1) : ℕ) : ℚ))
          (nsegOf target_len ((sliceIndices l gs).2 - (sliceIndices l gs).1)) 0
          ((sliceIndices l gs).1 : ℤ) := rfl
  rcases Nat.eq_zero_or_pos ((sliceIndices l gs).2 - (sliceIndices l gs).1) with h0 | hpos1
  · rw [hrun, h0, nsegOf_zero, evenLoop]
    constructor
    · intro p hp
      simp at hp
    · simp
      omega
  · have hns := nsegOf_ge_one ht hpos1
    have hnsne : ((nsegOf target_len ((sliceIndices l gs).2 - (sliceIndices l gs).1) : ℕ) : ℚ)
        ≠ 0 := by
      exact_mod_cast Nat.one_le_iff_ne_zero.mp hns.1
    have hsl : (0 : ℚ)
        ≤ (((sliceIndices l gs).2 - (sliceIndices l gs).1 : ℕ) : ℚ)
          / ((nsegOf target_len ((sliceIndices l gs).2 - (sliceIndices l gs).1) : ℕ) : ℚ) := by
      positivity
    have props := evenLoop_props ((sliceIndices l gs).1 : ℤ) _ hsl
      (nsegOf target_len ((sliceIndices l gs).2 - (sliceIndices l gs).1)) 0 le_rfl
    rw [pyRound_zero, add_zero, zero_add, mul_div_cancel₀ _ hnsne, pyRound_natCast] at props
    obtain ⟨pmem, psum⟩ := props
    rw [hrun]
    constructor
    · intro p hp
      obtain ⟨h1, h2, h3, h4⟩ := pmem p hp
      refine ⟨h1, h2, ?_, h4⟩
      calc p.2 ≤ ((sliceIndices l gs).1 : ℤ)
            + (((sliceIndices l gs).2 - (sliceIndices l gs).1 : ℕ) : ℤ) := h3
        _ = ((sliceIndices l gs).2 : ℤ) := by
            omega
    · rw [psum]
      omega

theorem runSegments_of_pos (l : Nat) {target_len : ℚ} (ht : 0 < target_len)
    (gs : Option Nat × Option Nat)
    (hpos : 1 ≤ (sliceIndices l gs).2 - (sliceIndices l gs).1) :
    runSegments l target_len gs = .ok (runSegmentsCore l target_len gs) := by
  rw [runSegments, if_neg]
  have := nsegOf_ge_one ht hpos
  omega

theorem runsSegmentsAll_ok (l : Nat) (target_len : ℚ) :
    ∀ (sls : List (Option Nat × Option Nat)),
      (∀ gs ∈ sls, runSegments l target_len gs = .ok (runSegmentsCore l target_len gs)) →
      runsSegmentsAll l target_len sls = .ok ((sls.map (runSegmentsCore l target_len)).flatten)
  | [], _ => rfl
  | gs :: rest, h => by
    rw [runsSegmentsAll, h gs (List.mem_cons_self _ _),
      runsSegmentsAll_ok l target_len rest (fun x hx => h x (List.mem_cons_of_mem _ hx))]
    rfl

theorem resolvedSlices_bounds (values : List ℚ) (maxgap : ℚ) :
    ∀ p ∈ resolvedSlices values maxgap, p.1 ≤ p.2 ∧ p.2 ≤ values.length := by
  intro p hp
  rw [resolvedSlices_eq] at hp
  have hpw_le : (0 :: whgap values maxgap).Pairwise (· ≤ ·) :=
    (whgap_pairwise_zero values maxgap).imp le_of_lt
  have hub : ∀ x ∈ whgap values maxgap, x ≤ values.length := by
    intro x hx
    have := whgap_bounds hx
    omega
  have := zip_boundary_bounds values.length _ 0 hpw_le hub (Nat.zero_le _) p hp
  exact ⟨this.2.1, this.2.2⟩

theorem resolvedSlices_pairwise_le (values : List ℚ) (maxgap : ℚ) :
    (resolvedSlices values maxgap).Pairwise (fun p q => p.2 ≤ q.1) := by
  rw [resolvedSlices_eq]
  have hpw_le : (0 :: whgap values maxgap).Pairwise (· ≤ ·) :=
    (whgap_pairwise_zero values maxgap).imp le_of_lt
  exact zip_boundary_pairwise values.length _ 0 hpw_le

theorem sliceIndices_mem_eq {values : List ℚ} {maxgap : ℚ} {gs : Option Nat × Option Nat}
    (h : gs ∈ gapSlices values maxgap) :
    sliceIndices values.length gs = resolveSlice values.length gs := by
  have hb := resolvedSlices_bounds values maxgap _
    (List.mem_map_of_mem (resolveSlice values.length) h)
  simp only [resolveSlice] at hb
  simp [sliceIndices, resolveSlice, min_eq_left (le_trans hb.1 hb.2), min_eq_left hb.2]

theorem map_sliceIndices_eq (values : List ℚ) (maxgap : ℚ) :
    (gapSlices values maxgap).map (sliceIndices values.length)
      = resolvedSlices values maxgap := by
  rw [resolvedSlices]
  exact List.map_congr_left (fun gs h => sliceIndices_mem_eq h)

theorem pairwise_mem_or {α : Type} {R : α → α → Prop} {l : List α} (hl : l.Pairwise R) :
    ∀ {a b : α}, a ∈ l → b ∈ l → a = b ∨ R a b ∨ R b a := by
  induction hl with
  | nil =>
    intro a b ha
    simp at ha
  | cons hhead _ ih =>
    intro a b ha hb
    rcases List.mem_cons.mp ha with rfl | ha2
    · rcases List.mem_cons.mp hb with rfl | hb2
      · exact Or.inl rfl
      · exact Or.inr (Or.inl (hhead b hb2))
    · rcases List.mem_cons.mp hb with rfl | hb2
      · exact Or.inr (Or.inr (hhead a ha2))
      · exact ih ha2 hb2

theorem zip_boundary_strict (L : Nat) :
    ∀ (g : List Nat) (s : Nat), (s :: g).Pairwise (· < ·) → (∀ x ∈ g, x < L) → s < L →
      ∀ p ∈ (s :: g).zip (g ++ [L]), p.1 < p.2
  | [], s, _, _, hsL => by
    intro p hp
    simp at hp
    subst hp
    exact hsL
  | x :: xs, s, hpw, hub, hsL => by
    rw [List.cons_append, List.zip_cons_cons]
    intro p hp
    rcases List.mem_cons.mp hp with rfl | hmem
    · exact (List.pairwise_cons.mp hpw).1 x (by simp)
    · exact zip_boundary_strict L xs x (List.pairwise_cons.mp hpw).2
        (fun y hy => hub y (by simp [hy])) (hub x (by simp)) p hmem

theorem resolvedSlices_strict (values : List ℚ) (maxgap : ℚ) (hne : values ≠ []) :
    ∀ p ∈ resolvedSlices values maxgap, p.1 < p.2 := by
  intro p hp
  rw [resolvedSlices_eq] at hp
  have hL : 0 < values.length := List.length_pos.mpr hne
  have hub : ∀ x ∈ whgap values maxgap, x < values.length := by
    intro x hx
    have := whgap_bounds hx
    omega
  exact zip_boundary_strict values.length _ 0 (whgap_pairwise_zero values maxgap) hub hL p hp

/-- Claim C3 counterexample: with `target_len = 3` a gap-free run of 5
elements has `nsegments = 1` and is yielded as the single slice `(0, 5)`,
whose length 5 exceeds `target_len` by 2 — more than any one-element
rounding tolerance. -/
theorem slice_evenly_target_exceeded :
    slice_evenly_with_gaps [0, 1, 2, 3, 4] 3 10 = .ok [(0, 5)]
    ∧ (3 : ℤ) + 1 < 5 - 0 := by
  constructor
  · norm_num [slice_evenly_with_gaps, slice_around_gaps, gapSlices, whgap, adjacentDeltas,
      List.range_succ, slicesFrom, runsSegmentsAll, runSegments, runSegmentsCore,
      sliceIndices, nsegOf]
    norm_num [evenLoop, pyRound]
  · decide

/-- Claim C3 (amended): for a non-decreasing sequence, positive `target_len`
and positive `maxgap`, `slice_evenly_with_gaps` on nonempty input yields
exactly the concatenation of the per-run subdivisions (on empty input the
single empty run has `nsegments = 0` and the `segment_len` division raises
`ZeroDivisionError`); every slice of a run is nonempty and contained in that
run, the slice lengths of each run sum to the run length, no slice is longer
than `⌈num_elements / nsegments⌉` (the uniform per-run bound rounding
allows — a slice can exceed `target_len` itself by more than one element),
every yielded slice lies within exactly one gap-free run, the `nsegments`
count agrees with the spec formula
`max(1, min(num_elements, floor(num_elements / target_len)))`, and a
gap-free run of 5 elements with `target_len = 2` splits into lengths
3 + 2 = 5. -/
theorem slice_evenly_with_gaps_runs (values : List ℚ) (target_len maxgap : ℚ)
    (hmono : List.Chain' (· ≤ ·) values) (ht : 0 < target_len) (hm : 0 < maxgap) :
    (values ≠ [] →
        slice_evenly_with_gaps values target_len maxgap
          = .ok (((gapSlices values maxgap).map
              (runSegmentsCore values.length target_len)).flatten))
    ∧ (values = [] →
        slice_evenly_with_gaps values target_len maxgap = .error .zeroDivisionError)
    ∧ (∀ gs ∈ gapSlices values maxgap,
        (∀ p ∈ runSegmentsCore values.length target_len gs,
            ((sliceIndices values.length gs).1 : ℤ) ≤ p.1 ∧ p.1 < p.2
              ∧ p.2 ≤ ((sliceIndices values.length gs).2 : ℤ)
              ∧ p.2 - p.1 ≤ ⌈(((sliceIndices values.length gs).2
                    - (sliceIndices values.length gs).1 : ℕ) : ℚ)
                  / ((nsegOf target_len ((sliceIndices values.length gs).2
                    - (sliceIndices values.length gs).1) : ℕ) : ℚ)⌉)
          ∧ ((runSegmentsCore values.length target_len gs).map (fun p => p.2 - p.1)).sum
              = ((sliceIndices values.length gs).2 : ℤ)
                - ((sliceIndices values.length gs).1 : ℤ))
    ∧ (∀ q ∈ ((gapSlices values maxgap).map
          (runSegmentsCore values.length target_len)).flatten,
        ∃! r, r ∈ (gapSlices values maxgap).map (sliceIndices values.length)
          ∧ (r.1 : ℤ) ≤ q.1 ∧ q.2 ≤ (r.2 : ℤ))
    ∧ (∀ num : ℕ, 1 ≤ num →
        nsegOf target_len num = (max 1 (min (num : ℤ) ⌊(num : ℚ) / target_len⌋)).toNat)
    ∧ slice_evenly_with_gaps [0, 1, 2, 3, 4] 2 10 = .ok [(0, 3), (3, 5)] := by
  have hok := slice_around_gaps_ok hm hmono
  have hse : ∀ gs ∈ gapSlices values maxgap,
      (sliceIndices values.length gs).1 ≤ (sliceIndices values.length gs).2 := by
    intro gs hgs
    rw [sliceIndices_mem_eq hgs]
    exact (resolvedSlices_bounds values maxgap _
      (List.mem_map_of_mem (resolveSlice values.length) hgs)).1
  refine ⟨?_, ?_, ?_, ?_, ?_, ?_⟩
  · intro hne
    rw [slice_evenly_with_gaps, if_neg (by simpa using ht), hok]
    have hstrict : ∀ gs ∈ gapSlices values maxgap,
        1 ≤ (sliceIndices values.length gs).2 - (sliceIndices values.length gs).1 := by
      intro gs hgs
      rw [sliceIndices_mem_eq hgs]
      have := resolvedSlices_strict values maxgap hne _
        (List.mem_map_of_mem (resolveSlice values.length) hgs)
      omega
    exact runsSegmentsAll_ok _ _ _
      (fun gs hgs => runSegments_of_pos _ ht gs (hstrict gs hgs))
  · rintro rfl
    rw [slice_evenly_with_gaps, if_neg (by simpa using ht),
      slice_around_gaps_ok hm (by simp)]
    have h0 : runSegments 0 target_len ((none : Option Nat), (none : Option Nat))
        = .error .zeroDivisionError := by
      rw [runSegments, if_pos]
      rw [show (sliceIndices 0 ((none : Option Nat), (none : Option Nat))).2
          - (sliceIndices 0 ((none : Option Nat), (none : Option Nat))).1 = 0 from rfl]
      exact nsegOf_zero target_len
    show runsSegmentsAll 0 target_len (gapSlices [] maxgap) = .error .zeroDivisionError
    rw [show gapSlices [] maxgap = [((none : Option Nat), (none : Option Nat))] from rfl]
    rw [runsSegmentsAll, h0]
  · intro gs hgs
    exact runSegments_props values.length target_len ht gs (hse gs hgs)
  · intro q hq
    obtain ⟨lsub, hlsub, hqmem⟩ := List.mem_flatten.mp hq
    obtain ⟨gs, hgs, rfl⟩ := List.mem_map.mp hlsub
    obtain ⟨hq1, hq2, hq3, _⟩ :=
      (runSegments_props values.length target_len ht gs (hse gs hgs)).1 q hqmem
    refine ⟨sliceIndices values.length gs,
      ⟨List.mem_map_of_mem (sliceIndices values.length) hgs, hq1, hq3⟩, ?_⟩
    rintro r' ⟨hr'mem, hr'1, hr'2⟩
    have hmem0 : sliceIndices values.length gs ∈ resolvedSlices values maxgap := by
      rw [← map_sliceIndices_eq values maxgap]
      exact List.mem_map_of_mem (sliceIndices values.length) hgs
    have hmem1 : r' ∈ resolvedSlices values maxgap := by
      rw [← map_sliceIndices_eq values maxgap]
      exact hr'mem
    rcases pairwise_mem_or (resolvedSlices_pairwise_le values maxgap) hmem1 hmem0 with
      heq | hlt | hlt
    · exact heq
    · exfalso
      have : ((r'.2 : ℤ)) ≤ ((sliceIndices values.length gs).1 : ℤ) := by
        exact_mod_cast hlt
      omega
    · exfalso
      have : (((sliceIndices values.length gs).2 : ℤ)) ≤ ((r'.1 : ℤ)) := by
        exact_mod_cast hlt
      omega
  · intro num h1
    have hfl : (0 : ℤ) ≤ ⌊(num : ℚ) / target_len⌋ := Int.floor_nonneg.mpr (by positivity)
    rw [nsegOf]
    omega
  · norm_num [slice_evenly_with_gaps, slice_around_gaps, gapSlices, whgap, adjacentDeltas,
      List.range_succ, slicesFrom, runsSegmentsAll, runSegments, runSegmentsCore,
      sliceIndices, nsegOf]
    simp only [Int.reduceToNat]
    norm_num [evenLoop, pyRound]

theorem slice_evenly_with_gaps_runs_witness :
    slice_evenly_with_gaps [0, 1, 2, 3, 4] 2 10 = .ok [(0, 3), (3, 5)]
    ∧ slice_evenly_with_gaps [0, 1, 2, 3, 4] 2 10 =
        .ok (((gapSlices [0, 1, 2, 3, 4] 10).map (runSegmentsCore 5 2)).flatten)
    ∧ slice_evenly_with_gaps ([] : List ℚ) 2 10 = .error .zeroDivisionError := by
  have h := slice_evenly_with_gaps_runs [0, 1, 2, 3, 4] 2 10
    (by norm_num [List.chain'_cons, List.chain'_singleton]) (by norm_num) (by norm_num)
  have h2 := slice_evenly_with_gaps_runs ([] : List ℚ) 2 10 (by simp) (by norm_num)
    (by norm_num)
  exact ⟨h.2.2.2.2.2, h.1 (by simp), h2.2.1 rfl⟩

theorem sqrt_three_div_three : Real.sqrt 3 / 3 = 1 / Real.sqrt 3 := by
  rw [div_eq_div_iff (by norm_num) (Real.sqrt_pos.mpr (by norm_num)).ne.symm]
  rw [Real.mul_self_sqrt (by norm_num)]
  norm_num

/-- Claim C4: `usmooth` with the all-ones kernel of length 3, unit
uncertainties and data `[1,2,3,4,5]` produces the moving average `[2,3,4]`
and the constant uncertainty `1/√3` at every valid position (`k = 1`, no
decimation); with the default `k` (the kernel length) the same series
decimated to every third point is returned; `k = None` means `k` is the
window size, and for `k ≠ 1` the result is the undecimated series
subsampled at stride `k`. -/
theorem usmooth_uniform_kernel :
    usmooth Real.sqrt [1, 1, 1] [1, 1, 1, 1, 1] [[1, 2, 3, 4, 5]] (some 1)
      = [[1 / Real.sqrt 3, 1 / Real.sqrt 3, 1 / Real.sqrt 3], [2, 3, 4]]
    ∧ usmooth Real.sqrt [1, 1, 1] [1, 1, 1, 1, 1] [[1, 2, 3, 4, 5]] none
      = [[1 / Real.sqrt 3], [2]]
    ∧ (∀ (window uncerts : List ℝ) (data : List (List ℝ)),
        usmooth Real.sqrt window uncerts data none
          = usmooth Real.sqrt window uncerts data (some window.length))
    ∧ (∀ (k : Nat), k ≠ 1 → ∀ (window uncerts : List ℝ) (data : List (List ℝ)),
        usmooth Real.sqrt window uncerts data (some k)
          = (usmooth Real.sqrt window uncerts data (some 1)).map (everyKth k)) := by
  refine ⟨?_, ?_, fun _ _ _ => rfl, fun k hk w u d => by simp [usmooth, hk]⟩
  · rw [← sqrt_three_div_three]
    norm_num [usmooth, convValid, List.range_succ]
  · rw [← sqrt_three_div_three]
    norm_num [usmooth, convValid, List.range_succ, everyKth, List.enum, List.enumFrom]

theorem usmooth_uniform_kernel_witness :
    usmooth Real.sqrt [1, 1, 1] [1, 1, 1, 1, 1] [[1, 2, 3, 4, 5]] (some 3)
      = (usmooth Real.sqrt [1, 1, 1] [1, 1, 1, 1, 1] [[1, 2, 3, 4, 5]] (some 1)).map
          (everyKth 3) :=
  usmooth_uniform_kernel.2.2.2 3 (by norm_num) _ _ _

/-- Claim C9: `parallel_newton` and `parallel_quad` fail with the
`ConfigurationError` whenever `par_args` or `simple_args` is a single
non-tuple value — for every behaviour of the external `newton`/`quad`
collaborators, so before any per-element dispatch — and when both are tuples
they succeed, dispatching with `par_args + simple_args`. -/
theorem parallel_args_validation {α β γ δ : Type}
    (newton : γ → α → List α → β) (func : γ) (x0 : α)
    (quad : γ → α → α → List α → δ × δ) (a b : α)
    (par_args simple_args : PyArg α) :
    (∀ v, par_args = PyArg.val v →
        parallel_newton newton func x0 par_args simple_args = .error .configurationError
        ∧ parallel_quad quad func a b par_args simple_args = .error .configurationError)
    ∧ (∀ v, simple_args = PyArg.val v →
        parallel_newton newton func x0 par_args simple_args = .error .configurationError
        ∧ parallel_quad quad func a b par_args simple_args = .error .configurationError)
    ∧ (∀ ps ss, par_args = PyArg.tup ps → simple_args = PyArg.tup ss →
        parallel_newton newton func x0 par_args simple_args = .ok (newton func x0 (ps ++ ss))
        ∧ parallel_quad quad func a b par_args simple_args = .ok (quad func a b (ps ++ ss))) := by
  refine ⟨?_, ?_, ?_⟩
  · rintro v rfl
    exact ⟨rfl, rfl⟩
  · rintro v rfl
    cases par_args <;> exact ⟨rfl, rfl⟩
  · rintro ps ss rfl rfl
    exact ⟨rfl, rfl⟩

theorem parallel_args_validation_witness :
    (parallel_newton (fun (_ : ℚ → ℚ) (x : ℚ) (_ : List ℚ) => x) id 2 (PyArg.val 5)
        (PyArg.tup []) = .error .configurationError)
    ∧ (parallel_quad (fun (_ : ℚ → ℚ) (a b : ℚ) (_ : List ℚ) => (a, b)) id 0 1 (PyArg.tup [])
        (PyArg.val 7) = .error .configurationError)
    ∧ (parallel_newton (fun (_ : ℚ → ℚ) (x : ℚ) (args : List ℚ) => x + args.sum) id 2
        (PyArg.tup [1]) (PyArg.tup [10]) = .ok 13) := by
  refine ⟨?_, ?_, ?_⟩
  · exact ((parallel_args_validation _ id 2 (fun (_ : ℚ → ℚ) (a b : ℚ) _ => (a, b)) 0 1
      (PyArg.val 5) (PyArg.tup [])).1 5 rfl).1
  · exact ((parallel_args_validation (fun (_ : ℚ → ℚ) (x : ℚ) (_ : List ℚ) => x) id 0
      _ 0 1 (PyArg.tup []) (PyArg.val 7)).2.1 7 rfl).2
  · have h := ((parallel_args_validation
      (fun (_ : ℚ → ℚ) (x : ℚ) (args : List ℚ) => x + args.sum) id 2
      (fun (_ : ℚ → ℚ) (a b : ℚ) _ => (a, b)) 0 1
      (PyArg.tup [1]) (PyArg.tup [10])).2.2 [1] [10] rfl rfl).1
    rw [h]
    norm_num

/-- Claim C10: every unit tophat function agrees pointwise (same
scalar-versus-array result form) with the factory tophat built at bounds
`(0, 1)`, for each of the four inclusivity variants. -/
theorem unit_tophat_refines_make_tophat (x : NDArr) :
    unit_tophat_ee x = make_tophat_ee 0 1 x
    ∧ unit_tophat_ei x = make_tophat_ei 0 1 x
    ∧ unit_tophat_ie x = make_tophat_ie 0 1 x
    ∧ unit_tophat_ii x = make_tophat_ii 0 1 x :=
  ⟨rfl, rfl, rfl, rfl⟩

theorem everyKth_length {β : Type} (k : Nat) (l : List β) :
    (everyKth k l).length
      = ((List.range l.length).filter (fun i => decide (i % k = 0))).length := by
  rw [everyKth, List.length_map, ← List.enum_map_fst l, List.filter_map, List.length_map]
  rfl

theorem everyKth_length_congr {β γ : Type} (k : Nat) {l1 : List β} {l2 : List γ}
    (h : l1.length = l2.length) : (everyKth k l1).length = (everyKth k l2).length := by
  rw [everyKth_length, everyKth_length, h]

theorem everyKth_one {β : Type} (l : List β) : everyKth 1 l = l := by
  rw [everyKth, List.filter_eq_self.mpr (fun p hp => by simp [Nat.mod_one]), List.enum_map_snd]

theorem convValid_length {α : Type} [Field α] (q r : List α) :
    (convValid q r).length = q.length - r.length + 1 := by
  simp [convValid]

theorem defaultIndex_length (n : Nat) : (defaultIndex n).length = n := by
  simp [defaultIndex]

/-- Claim C5 counterexample: on a 7-row frame with an all-ones window of
length 3 and the default decimation stride `k = 3`, `dfsmooth` returns a
frame whose row index is `[0, 3]` — the original labels are discarded, but
the returned index is *not* a default contiguous range. -/
theorem dfsmooth_index_not_contiguous :
    (dfsmooth (fun q => q) [1, 1, 1]
        (⟨[("u", [1, 1, 1, 1, 1, 1, 1]), ("x", [1, 2, 3, 4, 5, 6, 7])],
          [10, 20, 30, 40, 50, 60, 70]⟩ : DataFrame ℚ) "u" none).index = [0, 3]
    ∧ (dfsmooth (fun q => q) [1, 1, 1]
        (⟨[("u", [1, 1, 1, 1, 1, 1, 1]), ("x", [1, 2, 3, 4, 5, 6, 7])],
          [10, 20, 30, 40, 50, 60, 70]⟩ : DataFrame ℚ) "u" none).index
      ≠ defaultIndex (dfsmooth (fun q => q) [1, 1, 1]
          (⟨[("u", [1, 1, 1, 1, 1, 1, 1]), ("x", [1, 2, 3, 4, 5, 6, 7])],
            [10, 20, 30, 40, 50, 60, 70]⟩ : DataFrame ℚ) "u" none).index.length := by
  constructor
  · decide
  · decide

/-- Claim C5 amended: before decimation the frame produced by `dfsmooth` has
`n − window.length + 1` rows carrying the default contiguous index (the
original row labels are discarded — the result does not depend on the input
index at all); the returned frame is that frame subsampled at stride `k`
(default `k = window.length`), so its index is the default range subsampled
at stride `k` — contiguous when `k = 1` but not in general. -/
theorem dfsmooth_rows_index {α : Type} [Field α] (sqrt : α → α) (window : List α)
    (df : DataFrame α) (ucol : String) (n : Nat)
    (hne : df.cols ≠ [])
    (hw : window.length ≤ n)
    (hcols : ∀ c ∈ df.cols, c.2.length = n)
    (hucol : (df.col ucol).length = n) :
    (∀ k, (dfsmooth sqrt window df ucol (some k)).index
        = everyKth k (defaultIndex (n - window.length + 1)))
    ∧ (dfsmooth sqrt window df ucol (some 1)).index = defaultIndex (n - window.length + 1)
    ∧ (∀ k, ∀ c ∈ (dfsmooth sqrt window df ucol (some k)).cols,
        c.2.length = (everyKth k (defaultIndex (n - window.length + 1))).length)
    ∧ dfsmooth sqrt window df ucol none = dfsmooth sqrt window df ucol (some window.length)
    ∧ (∀ idx2, dfsmooth sqrt window ⟨df.cols, idx2⟩ ucol none
        = dfsmooth sqrt window df ucol none) := by
  have hwlen : ((df.col ucol).map (fun u => (u ^ 2)⁻¹)).length = n := by
    rw [List.length_map, hucol]
  have hcollen : ∀ c ∈ df.cols,
      (if c.1 = ucol then
          (c.1, List.zipWith (fun a b => a * b)
            ((convValid ((df.col ucol).map (fun u => (u ^ 2)⁻¹))
              (window.map (fun t => t ^ 2))).map sqrt)
            ((convValid ((df.col ucol).map (fun u => (u ^ 2)⁻¹)) window).map (fun a => a⁻¹)))
        else
          (c.1, List.zipWith (fun a b => a * b)
            (convValid (List.zipWith (fun a b => a * b)
              ((df.col ucol).map (fun u => (u ^ 2)⁻¹)) c.2) window)
            ((convValid ((df.col ucol).map (fun u => (u ^ 2)⁻¹)) window).map
              (fun a => a⁻¹)))).2.length = n - window.length + 1 := by
    intro c hc
    by_cases hcu : c.1 = ucol
    · simp [hcu, convValid_length, hwlen]
    · simp only [hcu, if_false, List.length_zipWith, List.length_map, convValid_length]
      rw [hucol, hcols c hc]
      omega
  obtain ⟨c0, cs, hdf⟩ := List.exists_cons_of_ne_nil hne
  have hidx : ∀ kk, (dfsmooth sqrt window df ucol (some kk)).index
      = everyKth kk (defaultIndex (n - window.length + 1)) := by
    intro kk
    simp only [dfsmooth, Option.getD_some]
    rw [hdf, List.map_cons, List.head?_cons]
    simp only [Option.map_some', Option.getD_some]
    rw [hcollen c0 (by rw [hdf]; exact List.mem_cons_self _ _)]
  refine ⟨hidx, ?_, ?_, rfl, fun idx2 => rfl⟩
  · rw [hidx 1, everyKth_one]
  · intro k c hc
    simp only [dfsmooth, Option.getD_some, List.mem_map] at hc
    obtain ⟨c1, ⟨c2, hc2, rfl⟩, rfl⟩ := hc
    exact everyKth_length_congr k
      ((hcollen c2 hc2).trans (defaultIndex_length _).symm)

theorem dfsmooth_rows_index_witness :
    (dfsmooth (fun q : ℚ => q) [1, 1, 1]
        (⟨[("u", [1, 1, 1, 1, 1, 1, 1]), ("x", [1, 2, 3, 4, 5, 6, 7])],
          [10, 20, 30, 40, 50, 60, 70]⟩ : DataFrame ℚ) "u" (some 1)).index
      = defaultIndex 5
    ∧ (dfsmooth (fun q : ℚ => q) [1, 1, 1]
        (⟨[("u", [1, 1, 1, 1, 1, 1, 1]), ("x", [1, 2, 3, 4, 5, 6, 7])],
          [10, 20, 30, 40, 50, 60, 70]⟩ : DataFrame ℚ) "u" (some 3)).index
      = everyKth 3 (defaultIndex 5) := by
  have h := dfsmooth_rows_index (fun q : ℚ => q) [1, 1, 1]
    (⟨[("u", [1, 1, 1, 1, 1, 1, 1]), ("x", [1, 2, 3, 4, 5, 6, 7])],
      [10, 20, 30, 40, 50, 60, 70]⟩ : DataFrame ℚ) "u" 7
    (by decide) (by decide) (by decide) (by decide)
  exact ⟨h.2.1, h.1 3⟩

theorem locSet_index {α : Type} (df : DataFrame α) (fill : α) (label : ℤ) (cname : String)
    (v : α) : (df.locSet fill label cname v).index = df.index := by
  simp only [DataFrame.locSet]
  split <;> rfl

theorem foldl_index {α β : Type} (step : DataFrame α → β → DataFrame α)
    (hstep : ∀ s x, (step s x).index = s.index) :
    ∀ (l : List β) (s : DataFrame α), (l.foldl step s).index = s.index
  | [], _ => rfl
  | x :: xs, s => (foldl_index step hstep xs (step s x)).trans (hstep s x)

theorem reduceChunkRow_index {α : Type} [LinearOrderedField α] (sqrt : α → α) (fill : α)
    (ac uc mc : List String) (nck upre : String) (ch : DataFrame α) (i : Nat)
    (subd : DataFrame α) :
    (reduceChunkRow sqrt fill ac uc mc nck upre ch i subd).index = ch.index := by
  simp only [reduceChunkRow]
  refine (foldl_index _ ?_ mc _).trans ((foldl_index _ ?_ uc _).trans
    ((foldl_index _ ?_ ac _).trans ?_))
  · intro s x
    rw [locSet_index, locSet_index]
  · intro s x
    rw [locSet_index, locSet_index]
  · intro s x
    rw [locSet_index]
  · rw [locSet_index]

/-- Claim C6 counterexample: with an empty chunk list and `avg_cols = ["a"]`,
the result holds only the chunk-count column — the aggregate columns implied
by `avg_cols` are *not* present, because they are only created by the
per-chunk assignments. -/
theorem reduce_data_frame_empty_cols_counterexample :
    ((reduce_data_frame (fun q => q) (0 : ℚ)
        (⟨[("a", [1, 2, 3])], [0, 1, 2]⟩ : DataFrame ℚ) [] ["a"] [] [] "nchunk" "u" 3).cols.map
        Prod.fst = ["nchunk"])
    ∧ ¬ ("a" ∈ ((reduce_data_frame (fun q => q) (0 : ℚ)
        (⟨[("a", [1, 2, 3])], [0, 1, 2]⟩ : DataFrame ℚ) [] ["a"] [] [] "nchunk" "u"
        3).cols.map Prod.fst)) := by
  constructor
  · decide
  · decide

/-- Claim C6 amended: `reduce_data_frame` drops every chunk whose row count is
below `min_points_per_chunk`, returns a frame with the default index holding
exactly one row per surviving chunk in order, and never fails on an empty
chunk list — but in the empty case the result holds only the (empty)
chunk-count column, since the aggregate columns are created by the per-chunk
assignments; the input frame is not touched (the embedding is pure and the
result is built from a fresh frame). -/
theorem reduce_data_frame_chunks {α : Type} [LinearOrderedField α] (sqrt : α → α) (fill : α)
    (df : DataFrame α) (chunk_slicers : List (ℤ × ℤ)) (ac uc mc : List String)
    (nck upre : String) (minp : Nat) :
    (reduce_data_frame sqrt fill df chunk_slicers ac uc mc nck upre minp).index
      = defaultIndex (((chunk_slicers.map df.iloc).filter
          (fun sd => decide (minp ≤ sd.index.length))).length)
    ∧ (chunk_slicers = [] →
        reduce_data_frame sqrt fill df chunk_slicers ac uc mc nck upre minp
          = ⟨[(nck, [])], []⟩) := by
  constructor
  · simp only [reduce_data_frame]
    exact (foldl_index _ (fun s x => reduceChunkRow_index _ _ _ _ _ _ _ _ _ _) _ _).trans rfl
  · rintro rfl
    rfl

theorem reduce_data_frame_chunks_witness :
    reduce_data_frame (fun q => q) (0 : ℚ)
        (⟨[("a", [1, 2, 3])], [0, 1, 2]⟩ : DataFrame ℚ) [] ["a"] [] [] "nchunk" "u" 3
      = ⟨[("nchunk", [])], []⟩ :=
  (reduce_data_frame_chunks (fun q => q) (0 : ℚ)
    (⟨[("a", [1, 2, 3])], [0, 1, 2]⟩ : DataFrame ℚ) [] ["a"] [] [] "nchunk" "u" 3).2 rfl

theorem bcastRev_length :
    ∀ {s t r : List Nat}, bcastRev s t = some r → r.length = max s.length t.length
  | [], t, r, h => by
    simp [bcastRev] at h
    subst h
    simp
  | a :: s, [], r, h => by
    simp [bcastRev] at h
    subst h
    simp
  | a :: s, b :: t, r, h => by
    rw [bcastRev] at h
    cases hrec : bcastRev s t with
    | none =>
      rw [hrec] at h
      simp at h
    | some r0 =>
      rw [hrec] at h
      dsimp only at h
      have hlen := bcastRev_length hrec
      split_ifs at h
      all_goals
        cases h
        simp only [List.length_cons, hlen]
        omega

theorem broadcastShapes2_length {s t r : List Nat} (h : broadcastShapes2 s t = some r) :
    r.length = max s.length t.length := by
  rw [broadcastShapes2] at h
  cases hrec : bcastRev s.reverse t.reverse with
  | none => rw [hrec] at h; simp at h
  | some r0 =>
    rw [hrec] at h
    simp at h
    subst h
    have := bcastRev_length hrec
    simpa using this

theorem commonShape_length :
    ∀ {shapes : List (List Nat)} {sh : List Nat}, commonShape shapes = some sh →
      ∀ s ∈ shapes, s.length ≤ sh.length
  | [], _, _, s, hs => by simp at hs
  | s0 :: rest, sh, h, s, hs => by
    rw [commonShape] at h
    cases hrec : commonShape rest with
    | none => rw [hrec] at h; simp at h
    | some t =>
      rw [hrec] at h
      have hlen := broadcastShapes2_length h
      rcases List.mem_cons.mp hs with rfl | hs2
      · omega
      · have := commonShape_length hrec s hs2
        omega

theorem commonShape_all_nil :
    ∀ {shapes : List (List Nat)}, (∀ s ∈ shapes, s = []) → commonShape shapes = some []
  | [], _ => rfl
  | s0 :: rest, h => by
    rw [commonShape, commonShape_all_nil (fun s hs => h s (List.mem_cons_of_mem _ hs)),
      h s0 (List.mem_cons_self _ _)]
    rfl

theorem atleast_1d_of_ne {a : NDArr} (h : a.shape ≠ []) : a.atleast_1d = a := by
  rw [NDArr.atleast_1d, if_neg h]

theorem zipWith_replicate_map {β γ δ : Type} (f : γ → β → δ) (c : γ) :
    ∀ (l : List β), List.zipWith f (List.replicate l.length c) l = l.map (f c)
  | [] => rfl
  | x :: xs => by
    simp [List.replicate_succ, zipWith_replicate_map f c xs]

theorem broadcaster_call_eq (n_arr : Nat) (spec : RetSpec)
    (f : List NDArr → List NDArr → PyVal) (args : List NDArr) (sh : List Nat)
    (h1 : 1 ≤ n_arr) (h2 : n_arr ≤ args.length)
    (hcompat : commonShape ((args.take n_arr).map NDArr.shape) = some sh) :
    broadcaster_call n_arr spec f args
      = .ok (if sh = [] then
          retFilter spec
            (f ((args.take n_arr).map (fun a => (a.broadcastTo sh).atleast_1d))
              (args.drop n_arr))
        else
          f ((args.take n_arr).map (fun a => (a.broadcastTo sh).atleast_1d))
            (args.drop n_arr)) := by
  obtain ⟨na, rfl⟩ := Nat.exists_eq_succ_of_ne_zero (by omega : n_arr ≠ 0)
  cases args with
  | nil => simp at h2
  | cons a0 args' =>
    rw [broadcaster_call, if_neg (by omega)]
    rw [broadcast_arrays, hcompat]
    simp only [Option.map_some']
    rw [List.take_succ_cons, List.map_cons, List.map_cons, List.head?_cons]
    dsimp only
    rw [show (a0.broadcastTo sh).shape = sh from rfl]
    simp only [List.map_map, Function.comp]
    rfl

/-- Claim C2: for a `@broadcastize`-wrapped function with valid `n_arr`, the
wrapped function receives the first `n_arr` arguments broadcast to the common
shape and promoted with `np.atleast_1d` while the remaining arguments pass
through unchanged; when all of the first `n_arr` arguments are scalars (iff
the common broadcast shape is 0-dimensional) the call returns a scalar under
return-shape spec `0`, and a tuple of scalars under a tuple of `0` specs;
when at least one of them is an array, the call returns value(s) of the
common broadcast shape (the wrapped function being shape-preserving, which is
what spec `0` declares). -/
theorem broadcastize_scalar_vector (n_arr m : Nat)
    (f g : List NDArr → List NDArr → PyVal) (args : List NDArr) (sh : List Nat)
    (h1 : 1 ≤ n_arr) (h2 : n_arr ≤ args.length)
    (hcompat : commonShape ((args.take n_arr).map NDArr.shape) = some sh)
    (hf : ∀ inputs extra, ∃ a : NDArr, f inputs extra = .array a
        ∧ a.shape = (inputs.headD ⟨[], []⟩).shape)
    (hg : ∀ inputs extra, ∃ as : List NDArr, g inputs extra = .tupOut (as.map .array)
        ∧ as.length = m ∧ ∀ b ∈ as, b.shape = (inputs.headD ⟨[], []⟩).shape) :
    ((∀ a ∈ args.take n_arr, a.shape = []) → sh = [])
    ∧ ((∃ a ∈ args.take n_arr, a.shape ≠ []) → sh ≠ [])
    ∧ broadcaster_call n_arr (.single .demoteScalar) f args
        = .ok (if sh = [] then
            retFilter (.single .demoteScalar)
              (f ((args.take n_arr).map (fun a => (a.broadcastTo sh).atleast_1d))
                (args.drop n_arr))
          else
            f ((args.take n_arr).map (fun a => (a.broadcastTo sh).atleast_1d))
              (args.drop n_arr))
    ∧ (sh = [] →
        (∃ q, broadcaster_call n_arr (.single .demoteScalar) f args = .ok (.scalar q))
        ∧ (∃ qs : List ℚ, qs.length = m
            ∧ broadcaster_call n_arr (.tup (List.replicate m .demoteScalar)) g args
              = .ok (.tupOut (qs.map PyVal.scalar))))
    ∧ (sh ≠ [] →
        (∃ a : NDArr, a.shape = sh
          ∧ broadcaster_call n_arr (.single .demoteScalar) f args = .ok (.array a))
        ∧ (∃ as : List NDArr, as.length = m ∧ (∀ b ∈ as, b.shape = sh)
            ∧ broadcaster_call n_arr (.tup (List.replicate m .demoteScalar)) g args
              = .ok (.tupOut (as.map PyVal.array)))) := by
  obtain ⟨na, hna⟩ := Nat.exists_eq_succ_of_ne_zero (by omega : n_arr ≠ 0)
  have hargsne : args.take n_arr ≠ [] := by
    intro h
    have := congrArg List.length h
    simp [min_eq_left h2] at this
    omega
  obtain ⟨a0, rest0, htake⟩ := List.exists_cons_of_ne_nil hargsne
  have hhead : ∀ (F : NDArr → NDArr),
      (((args.take n_arr).map F).headD ⟨[], []⟩) = F a0 := by
    intro F
    rw [htake]
    rfl
  refine ⟨?_, ?_, broadcaster_call_eq n_arr _ f args sh h1 h2 hcompat, ?_, ?_⟩
  · intro hall
    have := @commonShape_all_nil ((args.take n_arr).map NDArr.shape) (by
      intro s hs
      obtain ⟨a, ha, rfl⟩ := List.mem_map.mp hs
      exact hall a ha)
    rw [this] at hcompat
    exact (Option.some_inj.mp hcompat).symm
  · rintro ⟨a, ha, hane⟩ rfl
    have := commonShape_length hcompat a.shape (List.mem_map_of_mem NDArr.shape ha)
    simp at this
    exact hane this
  · intro hsh
    subst hsh
    constructor
    · rw [broadcaster_call_eq n_arr _ f args [] h1 h2 hcompat, if_pos rfl]
      obtain ⟨a, hfa, _⟩ := hf ((args.take n_arr).map (fun a => (a.broadcastTo []).atleast_1d))
        (args.drop n_arr)
      rw [hfa]
      exact ⟨a.asscalar, rfl⟩
    · rw [broadcaster_call_eq n_arr _ g args [] h1 h2 hcompat, if_pos rfl]
      obtain ⟨as, hga, hlen, _⟩ := hg
        ((args.take n_arr).map (fun a => (a.broadcastTo []).atleast_1d)) (args.drop n_arr)
      rw [hga]
      refine ⟨as.map NDArr.asscalar, by simp [hlen], ?_⟩
      have hzip : List.zipWith scalarFilter (List.replicate m ScalarSpec.demoteScalar)
          (as.map PyVal.array) = (as.map PyVal.array).map (scalarFilter .demoteScalar) := by
        rw [← hlen, ← List.length_map as PyVal.array]
        exact zipWith_replicate_map scalarFilter ScalarSpec.demoteScalar (as.map PyVal.array)
      simp only [retFilter, hzip, List.map_map]
      rfl
  · intro hsh
    constructor
    · rw [broadcaster_call_eq n_arr _ f args sh h1 h2 hcompat, if_neg hsh]
      obtain ⟨a, hfa, hashape⟩ := hf
        ((args.take n_arr).map (fun a => (a.broadcastTo sh).atleast_1d)) (args.drop n_arr)
      rw [hhead (fun a => (a.broadcastTo sh).atleast_1d)] at hashape
      rw [@atleast_1d_of_ne (a0.broadcastTo sh) hsh] at hashape
      exact ⟨a, hashape.trans rfl, by rw [hfa]⟩
    · rw [broadcaster_call_eq n_arr _ g args sh h1 h2 hcompat, if_neg hsh]
      obtain ⟨as, hga, hlen, hshapes⟩ := hg
        ((args.take n_arr).map (fun a => (a.broadcastTo sh).atleast_1d)) (args.drop n_arr)
      refine ⟨as, hlen, ?_, by rw [hga]⟩
      intro b hb
      have hb2 := hshapes b hb
      rw [hhead (fun a => (a.broadcastTo sh).atleast_1d)] at hb2
      rw [@atleast_1d_of_ne (a0.broadcastTo sh) hsh] at hb2
      exact hb2.trans rfl

theorem broadcastize_scalar_vector_witness :
    (∃ q, broadcaster_call 1 (.single .demoteScalar)
        (fun inputs _ => .array (inputs.headD ⟨[], []⟩)) [⟨[], [5]⟩] = .ok (.scalar q))
    ∧ (∃ a : NDArr, a.shape = [2]
        ∧ broadcaster_call 1 (.single .demoteScalar)
            (fun inputs _ => .array (inputs.headD ⟨[], []⟩)) [⟨[2], [5, 7]⟩]
          = .ok (.array a)) := by
  have hf : ∀ (inputs extra : List NDArr),
      ∃ a : NDArr, (fun (inputs : List NDArr) (_ : List NDArr) =>
          PyVal.array (inputs.headD ⟨[], []⟩)) inputs extra = .array a
        ∧ a.shape = (inputs.headD ⟨[], []⟩).shape :=
    fun inputs extra => ⟨inputs.headD ⟨[], []⟩, rfl, rfl⟩
  have hg : ∀ (inputs extra : List NDArr),
      ∃ as : List NDArr, (fun (_ : List NDArr) (_ : List NDArr) =>
          PyVal.tupOut []) inputs extra = .tupOut (as.map .array)
        ∧ as.length = 0 ∧ ∀ b ∈ as, b.shape = (inputs.headD ⟨[], []⟩).shape :=
    fun inputs extra => ⟨[], rfl, rfl, by simp⟩
  constructor
  · exact ((broadcastize_scalar_vector 1 0 _ _ [⟨[], [5]⟩] []
      (by norm_num) (by norm_num) (by decide) hf hg).2.2.2.1 rfl).1
  · exact ((broadcastize_scalar_vector 1 0 _ _ [⟨[2], [5, 7]⟩] [2]
      (by norm_num) (by norm_num) (by decide) hf hg).2.2.2.2 (by decide)).1
